import Mathlib

/-!
# Verification of the tomo-nf neural-field notebooks

Shallow embedding of the numeric core of the repository: the linspace-based
coordinate helpers, the bilinear image interpolation used by the ground-truth
projector, the two forward projectors (for a discretized image and for a
network field), and the SIREN layers with their weight setup.  Real-valued
code is modelled over the real numbers; the random fill of a weight tensor is
modelled by an explicit draw function whose entries are assumed to lie in
the unit interval, so that a value drawn uniformly from an interval is any
affine image of such an entry.
-/

namespace TomoNF

noncomputable section

/-- Value number i of the n-step uniform lattice on the interval from -1 to 1,
as produced by numpy linspace and torch linspace: for n greater than 1 the
values are -1 + 2*i/(n-1); a one-step linspace holds only the start value -1. -/
def linVal (n i : ℕ) : ℝ :=
  if n ≤ 1 then -1 else -1 + 2 * i / ((n : ℝ) - 1)

/-- Embedding of image_coordinates: grid of normalized pixel coordinates built
from torch.meshgrid with matrix indexing, stacked and flattened row-major, so
the first axis varies slowest. -/
def image_coordinates (r c : ℕ) : List (ℝ × ℝ) :=
  (List.range r).flatMap fun i => (List.range c).map fun j => (linVal r i, linVal c j)

/-- Index of the interpolation cell holding lattice coordinate u, as computed
by searchsorted on a uniform lattice with n points: the floor of u clamped to
the last cell n - 2. -/
def cellIdx (n : ℕ) (u : ℝ) : ℕ :=
  min (Int.toNat ⌊u⌋) (n - 2)

/-- Bilinear interpolation of the r by c value table A at lattice coordinates
(u, v), where u ranges over cells 0 to r-1 and v over 0 to c-1. -/
def bilerp (r c : ℕ) (A : ℕ → ℕ → ℝ) (u v : ℝ) : ℝ :=
  let i := cellIdx r u
  let j := cellIdx c v
  let lu := u - (i : ℝ)
  let lv := v - (j : ℝ)
  (1 - lu) * (1 - lv) * A i j + (1 - lu) * lv * A i (j + 1)
    + lu * (1 - lv) * A (i + 1) j + lu * lv * A (i + 1) (j + 1)

/-- Embedding of the RegularGridInterpolator built inside project_image: the
image lives on the uniform lattice of [-1,1] x [-1,1] with r rows and c
columns, queries are interpolated linearly, out-of-bounds queries return the
fill value 0 and raise no error. -/
def interp (r c : ℕ) (A : ℕ → ℕ → ℝ) (x y : ℝ) : ℝ :=
  if -1 ≤ x ∧ x ≤ 1 ∧ -1 ≤ y ∧ y ≤ 1 then
    bilerp r c A ((x + 1) * ((r : ℝ) - 1) / 2) ((y + 1) * ((c : ℝ) - 1) / 2)
  else 0

/-- Rotation used by project_image: detector coordinate b and ray coordinate s
are mapped to the image-space point (s*cos t - b*sin t, s*sin t + b*cos t). -/
def imagePoint (t b s : ℝ) : ℝ × ℝ :=
  (s * Real.cos t - b * Real.sin t, s * Real.sin t + b * Real.cos t)

/-- Sample point number (i, j) of the rotated interpolation grid of
project_image: detector index i on the b axis, ray index j on the s axis. -/
def raySample (t : ℝ) (nrB nrS i j : ℕ) : ℝ × ℝ :=
  imagePoint t (linVal nrB i) (linVal nrS j)

/-- Entry (angle t, column j) of the array returned by project_image: the code
takes the mean of the interpolated values over axis 0 of the (nrB, nrS,
angle) value array, i.e. over the detector-bin axis, then transposes. -/
def sinoEntry (r c : ℕ) (A : ℕ → ℕ → ℝ) (t : ℝ) (nrB nrS j : ℕ) : ℝ :=
  (∑ i ∈ Finset.range nrB,
      interp r c A (raySample t nrB nrS i j).1 (raySample t nrB nrS i j).2) / (nrB : ℝ)

/-- Embedding of the python default nr_S = nr_S or nr_B: an absent or zero
sample count falls back to the bin count. -/
def resolveNrS (nrB : ℕ) (nrS : Option ℕ) : ℕ :=
  match nrS with
  | none => nrB
  | some m => if m = 0 then nrB else m

/-- Embedding of project_image: one output row per angle; each row is the
transposed axis-0 mean of the interpolated values on the rotated grid, so it
has one entry per value of the s axis. -/
def project_image (r c : ℕ) (A : ℕ → ℕ → ℝ) (thetas : List ℝ) (nrB : ℕ)
    (nrS : Option ℕ) : List (List ℝ) :=
  let nS := resolveNrS nrB nrS
  thetas.map fun t => (List.range nS).map fun j => sinoEntry r c A t nrB nS j

/-- Rotation used by project_model: the point (b, s) is multiplied by the
transpose of the matrix [[sin t, cos t], [cos t, -sin t]], giving the point
(b*sin t + s*cos t, b*cos t - s*sin t). -/
def modelPoint (t b s : ℝ) : ℝ × ℝ :=
  (b * Real.sin t + s * Real.cos t, b * Real.cos t - s * Real.sin t)

/-- Value used by project_model for flat sample index k: the field f (the
network composed with its positional encoding) evaluated directly at the
rotated point, with no domain test and no zero fill.  The xy meshgrid order
makes k % nrB the detector index and k / nrB the ray index. -/
def modelSample (f : ℝ → ℝ → ℝ) (t : ℝ) (nrB nrS k : ℕ) : ℝ :=
  f (modelPoint t (linVal nrB (k % nrB)) (linVal nrS (k / nrB))).1
    (modelPoint t (linVal nrB (k % nrB)) (linVal nrS (k / nrB))).2

/-- Embedding of project_model: the flat value list is reshaped to (nrB, nrS)
and summed over its last axis with weight 1/nrS. -/
def project_model (f : ℝ → ℝ → ℝ) (t : ℝ) (nrB nrS : ℕ) : List ℝ :=
  (List.range nrB).map fun a =>
    (1 / (nrS : ℝ)) * ∑ cc ∈ Finset.range nrS, modelSample f t nrB nrS (a * nrS + cc)

/-- Half-width of the uniform interval used to fill a sine-layer weight: the
first layer uses 1/indim, every later layer uses sqrt(6/indim)/omega. -/
def weightBound (indim : ℕ) (isFirst : Bool) (omega : ℝ) : ℝ :=
  if isFirst then 1 / (indim : ℝ) else Real.sqrt (6 / (indim : ℝ)) / omega

/-- A sine layer: a linear map followed by the sine of omega times the
pre-activation. -/
structure SineLayer where
  indim : ℕ
  outdim : ℕ
  isFirst : Bool
  omega : ℝ
  weight : ℕ → ℕ → ℝ
  bias : ℕ → ℝ

/-- Construction of a SineLayer: the weight entry (o, i) is drawn uniformly
from the interval of half-width weightBound, modelled as the affine image of
the draw u o i; the bias keeps the default fill of the linear sublayer. -/
def SineLayer.create (indim outdim : ℕ) (isFirst : Bool) (omega : ℝ)
    (u : ℕ → ℕ → ℝ) (b : ℕ → ℝ) : SineLayer :=
  { indim := indim, outdim := outdim, isFirst := isFirst, omega := omega,
    weight := fun o i =>
      -(weightBound indim isFirst omega) + u o i * (2 * weightBound indim isFirst omega),
    bias := b }

/-- The linear sublayer of a SineLayer applied to one input vector, matching
nn.Linear: output o is the inner product of weight row o with the input plus
the bias entry o. -/
def SineLayer.linearApply (l : SineLayer) (x : ℕ → ℝ) (o : ℕ) : ℝ :=
  (∑ i ∈ Finset.range l.indim, l.weight o i * x i) + l.bias o

/-- Forward pass of a SineLayer on one input vector: the sine of omega times
the linear sublayer output. -/
def SineLayer.forward (l : SineLayer) (x : ℕ → ℝ) (o : ℕ) : ℝ :=
  Real.sin (l.omega * l.linearApply x o)

/-- Forward pass of a SineLayer on a batch of input vectors. -/
def SineLayer.forwardBatch (l : SineLayer) (xs : List (ℕ → ℝ)) : List (ℕ → ℝ) :=
  xs.map l.forward

/-- A plain linear output layer. -/
structure LinLayer where
  indim : ℕ
  outdim : ℕ
  weight : ℕ → ℕ → ℝ
  bias : ℕ → ℝ

/-- Construction of the final linear layer of a Siren: the weight entry (o, i)
is drawn uniformly from the interval of half-width w. -/
def LinLayer.create (indim outdim : ℕ) (w : ℝ) (u : ℕ → ℕ → ℝ) (b : ℕ → ℝ) : LinLayer :=
  { indim := indim, outdim := outdim,
    weight := fun o i => -w + u o i * (2 * w),
    bias := b }

/-- One member of the sequential layer list of a Siren. -/
inductive NetLayer where
  | sine (l : SineLayer)
  | lin (l : LinLayer)

/-- Shape summary of a layer: whether it is periodic, its first-layer flag,
and its frequency factor (0 for a plain linear layer). -/
def NetLayer.kind : NetLayer → Bool × Bool × ℝ
  | NetLayer.sine l => (true, l.isFirst, l.omega)
  | NetLayer.lin _ => (false, false, 0)

/-- Embedding of the Siren constructor: a first sine layer, nr_hidden hidden
sine layers, and a final layer that is plain linear with the non-first bound
when outermost_linear holds and one more sine layer otherwise.  The draw
family us and the bias family bs supply the random fills layer by layer. -/
def Siren.create (indim outdim nr_hidden hiddendim : ℕ) (outermost_linear : Bool)
    (first_omega hidden_omega : ℝ) (us : ℕ → ℕ → ℕ → ℝ) (bs : ℕ → ℕ → ℝ) :
    List NetLayer :=
  NetLayer.sine (SineLayer.create indim hiddendim true first_omega (us 0) (bs 0))
    :: (List.range nr_hidden).map (fun k =>
        NetLayer.sine (SineLayer.create hiddendim hiddendim false hidden_omega
          (us (k + 1)) (bs (k + 1))))
    ++ [if outermost_linear then
          NetLayer.lin (LinLayer.create hiddendim outdim
            (Real.sqrt (6 / (hiddendim : ℝ)) / hidden_omega)
            (us (nr_hidden + 1)) (bs (nr_hidden + 1)))
        else
          NetLayer.sine (SineLayer.create hiddendim outdim false hidden_omega
            (us (nr_hidden + 1)) (bs (nr_hidden + 1)))]

/-- Failure-aware SineLayer constructor, modelling where the source raises at
construction time: with indim = 0 the python integer divisions 1/indim and
6/indim raise ZeroDivisionError; in the non-first branch a non-positive omega
makes uniform_ reject its range (reversed bounds for negative omega, an
infinite width for omega = 0).  A first layer never uses omega during
construction, so its omega is unconstrained. -/
def SineLayer.createChecked (indim outdim : ℕ) (isFirst : Bool) (omega : ℝ)
    (u : ℕ → ℕ → ℝ) (b : ℕ → ℝ) : Option SineLayer :=
  if indim = 0 then none
  else if isFirst = false ∧ omega ≤ 0 then none
  else some (SineLayer.create indim outdim isFirst omega u b)

/-- Failure-aware final linear layer of a Siren: np.sqrt(6/hiddendim) raises
ZeroDivisionError when hiddendim = 0, and uniform_ rejects the range produced
by a non-positive hidden omega. -/
def finalLinearChecked (hiddendim outdim : ℕ) (ho : ℝ) (u : ℕ → ℕ → ℝ)
    (b : ℕ → ℝ) : Option NetLayer :=
  if hiddendim = 0 then none
  else if ho ≤ 0 then none
  else some (NetLayer.lin (LinLayer.create hiddendim outdim
    (Real.sqrt (6 / (hiddendim : ℝ)) / ho) u b))

/-- Failure-aware Siren constructor: the first layer, the hidden layers and
the final layer are built in source order and any construction-time error
makes the whole construction fail.  A non-positive hidden-layer count makes
the hidden loop empty and raises nothing. -/
def Siren.createChecked (indim outdim nr_hidden hiddendim : ℕ)
    (outermost_linear : Bool) (first_omega hidden_omega : ℝ)
    (us : ℕ → ℕ → ℕ → ℝ) (bs : ℕ → ℕ → ℝ) : Option (List NetLayer) :=
  match SineLayer.createChecked indim hiddendim true first_omega (us 0) (bs 0),
      (List.range nr_hidden).mapM (fun k =>
        (SineLayer.createChecked hiddendim hiddendim false hidden_omega
          (us (k + 1)) (bs (k + 1))).map NetLayer.sine),
      (if outermost_linear then
        finalLinearChecked hiddendim outdim hidden_omega
          (us (nr_hidden + 1)) (bs (nr_hidden + 1))
      else
        (SineLayer.createChecked hiddendim outdim false hidden_omega
          (us (nr_hidden + 1)) (bs (nr_hidden + 1))).map NetLayer.sine) with
  | some first, some hidden, some final => some (NetLayer.sine first :: hidden ++ [final])
  | _, _, _ => none

/-- A concrete 2 by 2 test image with values A i j = i * j. -/
def Aex : ℕ → ℕ → ℝ := fun i j => (i : ℝ) * (j : ℝ)

end

/-! ## Helper lemmas -/

theorem linVal_start (n : ℕ) : linVal n 0 = -1 := by
  unfold linVal
  split <;> simp

theorem linVal_last (n : ℕ) (hn : 2 ≤ n) : linVal n (n - 1) = 1 := by
  unfold linVal
  rw [if_neg (by omega)]
  have h1 : (1 : ℝ) ≤ (n : ℝ) - 1 := by
    have : (2 : ℝ) ≤ (n : ℝ) := by exact_mod_cast hn
    linarith
  have h0 : (n : ℝ) - 1 ≠ 0 := by linarith
  rw [Nat.cast_sub (by omega), Nat.cast_one]
  field_simp
  norm_num

theorem linVal_mem (n i : ℕ) (hi : i < n) : -1 ≤ linVal n i ∧ linVal n i ≤ 1 := by
  unfold linVal
  split
  · constructor <;> norm_num
  · rename_i h
    have h2 : 2 ≤ n := by omega
    have hn1 : (1 : ℝ) ≤ (n : ℝ) - 1 := by
      have : (2 : ℝ) ≤ (n : ℝ) := by exact_mod_cast h2
      linarith
    have hpos : (0 : ℝ) < (n : ℝ) - 1 := by linarith
    have hile : (i : ℝ) ≤ (n : ℝ) - 1 := by
      have : (i : ℝ) ≤ (n : ℝ) - 1 ↔ (i : ℝ) + 1 ≤ (n : ℝ) := by constructor <;> intro <;> linarith
      rw [this]
      exact_mod_cast hi
    constructor
    · have : 0 ≤ 2 * (i : ℝ) / ((n : ℝ) - 1) := by positivity
      linarith
    · have : 2 * (i : ℝ) / ((n : ℝ) - 1) ≤ 2 := by
        rw [div_le_iff₀ hpos]
        linarith
      linarith

theorem linVal_reflect (n j : ℕ) (hn : 2 ≤ n) (hj : j < n) :
    linVal n (n - 1 - j) = -(linVal n j) := by
  unfold linVal
  rw [if_neg (by omega), if_neg (by omega)]
  have hpos : (0 : ℝ) < (n : ℝ) - 1 := by
    have : (2 : ℝ) ≤ (n : ℝ) := by exact_mod_cast hn
    linarith
  have hcast : ((n - 1 - j : ℕ) : ℝ) = (n : ℝ) - 1 - (j : ℝ) := by
    rw [Nat.cast_sub (by omega), Nat.cast_sub (by omega), Nat.cast_one]
  rw [hcast]
  field_simp
  ring

theorem uniformDraw_mem (w u : ℝ) (hw : 0 ≤ w) (hu : u ∈ Set.Icc (0 : ℝ) 1) :
    -w + u * (2 * w) ∈ Set.Icc (-w) w := by
  obtain ⟨h0, h1⟩ := hu
  constructor
  · nlinarith
  · nlinarith

theorem mapM_option_none_of_head {α β : Type} (f : α → Option β) (a : α) (l : List α)
    (h : f a = none) : (a :: l).mapM f = none := by
  rw [List.mapM_cons, h]
  rfl

theorem mapM_option_all_some {α β : Type} (f : α → Option β) (g : α → β) (l : List α)
    (h : ∀ x ∈ l, f x = some (g x)) : l.mapM f = some (l.map g) := by
  induction l with
  | nil => rfl
  | cons a l ih =>
    rw [List.mapM_cons, h a (by simp), ih fun x hx => h x (by simp [hx])]
    rfl

theorem createChecked_none_of_bad (indim outdim nr_hidden hiddendim : ℕ) (ol : Bool)
    (fo ho : ℝ) (us : ℕ → ℕ → ℕ → ℝ) (bs : ℕ → ℕ → ℝ)
    (hbad : hiddendim = 0 ∨ ho ≤ 0) :
    Siren.createChecked indim outdim nr_hidden hiddendim ol fo ho us bs = none := by
  by_cases hin : indim = 0
  · have hfirst : SineLayer.createChecked indim hiddendim true fo (us 0) (bs 0) = none := by
      unfold SineLayer.createChecked
      rw [if_pos hin]
    unfold Siren.createChecked
    rw [hfirst]
  · have hfirst : SineLayer.createChecked indim hiddendim true fo (us 0) (bs 0)
        = some (SineLayer.create indim hiddendim true fo (us 0) (bs 0)) := by
      unfold SineLayer.createChecked
      rw [if_neg hin, if_neg (by simp)]
    have hhid : ∀ n, (SineLayer.createChecked hiddendim hiddendim false ho
        (us n) (bs n)).map NetLayer.sine = none := by
      intro n
      rcases hbad with h | h
      · simp [SineLayer.createChecked, h]
      · by_cases h0 : hiddendim = 0
        · simp [SineLayer.createChecked, h0]
        · simp [SineLayer.createChecked, h0, h]
    have hfin : ∀ n, (if ol then finalLinearChecked hiddendim outdim ho (us n) (bs n)
        else (SineLayer.createChecked hiddendim outdim false ho
          (us n) (bs n)).map NetLayer.sine) = none := by
      intro n
      rcases hbad with h | h
      · cases ol <;> simp [finalLinearChecked, SineLayer.createChecked, h]
      · by_cases h0 : hiddendim = 0
        · cases ol <;> simp [finalLinearChecked, SineLayer.createChecked, h0]
        · cases ol <;> simp [finalLinearChecked, SineLayer.createChecked, h0, h]
    unfold Siren.createChecked
    rw [hfirst]
    cases nr_hidden with
    | zero =>
      rw [show ((List.range 0).mapM fun k =>
          (SineLayer.createChecked hiddendim hiddendim false ho
            (us (k + 1)) (bs (k + 1))).map NetLayer.sine)
          = some ([] : List NetLayer) from rfl]
      rw [hfin (0 + 1)]
    | succ m =>
      rw [List.range_succ_eq_map, mapM_option_none_of_head (fun k =>
        (SineLayer.createChecked hiddendim hiddendim false ho
          (us (k + 1)) (bs (k + 1))).map NetLayer.sine) 0
        (List.map Nat.succ (List.range m)) (hhid (0 + 1))]

theorem image_coordinates_length (r c : ℕ) : (image_coordinates r c).length = r * c := by
  unfold image_coordinates
  rw [List.length_flatMap]
  have h : (List.length ∘ fun i => (List.range c).map fun j => (linVal r i, linVal c j))
      = fun _ : ℕ => c := by
    funext k; simp
  rw [h, List.map_const', List.length_range, List.sum_const_nat]

theorem flatMap_range_getElem {α : Type} (f : ℕ → List α) (c : ℕ)
    (hc : ∀ k, (f k).length = c) (i j : ℕ) (hj : j < c) :
    ∀ r, i < r → ((List.range r).flatMap f)[i * c + j]? = (f i)[j]? := by
  intro r
  induction r with
  | zero => intro hi; exact absurd hi (by omega)
  | succ n ih =>
    intro hi
    rw [List.range_succ, List.flatMap_append]
    have hlen : ((List.range n).flatMap f).length = n * c := by
      rw [List.length_flatMap]
      have h : (List.length ∘ f) = fun _ : ℕ => c := by funext k; exact hc k
      rw [h, List.map_const', List.length_range, List.sum_const_nat]
    by_cases h : i < n
    · rw [List.getElem?_append_left (by
        rw [hlen]
        calc i * c + j < i * c + c := by omega
          _ = (i + 1) * c := by ring
          _ ≤ n * c := Nat.mul_le_mul_right c h)]
      exact ih h
    · have hin : i = n := by omega
      subst hin
      rw [List.getElem?_append_right (by rw [hlen]; omega)]
      simp [hlen]

theorem image_coordinates_getElem (r c i j : ℕ) (hi : i < r) (hj : j < c) :
    (image_coordinates r c)[i * c + j]? = some (linVal r i, linVal c j) := by
  unfold image_coordinates
  rw [flatMap_range_getElem _ c (by intro k; simp) i j hj r hi]
  simp [List.getElem?_range hj]

theorem interp_corner_hi (A : ℕ → ℕ → ℝ) : interp 2 2 A 1 1 = A 1 1 := by
  unfold interp bilerp cellIdx
  rw [if_pos (by norm_num)]
  norm_num [Int.floor_one]

theorem interp_corner_lo (A : ℕ → ℕ → ℝ) : interp 2 2 A (-1) (-1) = A 0 0 := by
  unfold interp bilerp cellIdx
  rw [if_pos (by norm_num)]
  norm_num

theorem imagePoint_add_pi (t b s : ℝ) :
    imagePoint (t + Real.pi) b s = imagePoint t (-b) (-s) := by
  unfold imagePoint
  rw [Real.cos_add, Real.sin_add, Real.cos_pi, Real.sin_pi]
  simp only [Prod.mk.injEq]
  constructor <;> ring

theorem raySample_add_pi (t : ℝ) (nrB nrS i j : ℕ) (hB : 2 ≤ nrB) (hS : 2 ≤ nrS)
    (hi : i < nrB) (hj : j < nrS) :
    raySample (t + Real.pi) nrB nrS i j = raySample t nrB nrS (nrB - 1 - i) (nrS - 1 - j) := by
  unfold raySample
  rw [linVal_reflect nrB i hB hi, linVal_reflect nrS j hS hj]
  exact imagePoint_add_pi t (linVal nrB i) (linVal nrS j)

theorem sinoEntry_add_pi (r c : ℕ) (A : ℕ → ℕ → ℝ) (t : ℝ) (nrB nrS j : ℕ)
    (hB : 2 ≤ nrB) (hS : 2 ≤ nrS) (hj : j < nrS) :
    sinoEntry r c A (t + Real.pi) nrB nrS j = sinoEntry r c A t nrB nrS (nrS - 1 - j) := by
  unfold sinoEntry
  congr 1
  rw [← Finset.sum_range_reflect (fun i =>
      interp r c A (raySample t nrB nrS i (nrS - 1 - j)).1
        (raySample t nrB nrS i (nrS - 1 - j)).2) nrB]
  apply Finset.sum_congr rfl
  intro i hi
  rw [raySample_add_pi t nrB nrS i j hB hS (Finset.mem_range.mp hi) hj]

/-! ## Claim theorems -/

/-- Claim C1: the sinogram returned by project_image has len(thetas) rows and
nr_bins columns, each entry being the mean of the nr_samples field values
along the ray of its bin.  The code computes the mean over axis 0 of the
(nr_bins, nr_samples, angle) value array, which is the detector-bin axis, so
a call with 2 bins and 3 samples per ray returns rows of length 3 instead of
the documented 2 projection values: evaluated here at that failing input. -/
theorem c1_sinogram_row_length_is_nrS :
    (project_image 2 2 Aex [0] 2 (some 3)).map List.length = [3] := by
  unfold project_image resolveNrS
  simp

/-- Claim C2: project_image sends the detector and ray coordinates (b, s) at
angle t to (s*cos t - b*sin t, s*sin t + b*cos t), while project_model
multiplies (b, s) by the transpose of [[sin t, cos t], [cos t, -sin t]].
At t = pi/2, b = 1, s = 0 the two operators sample the distinct points
(-1, 0) and (1, 0), refuting the claimed agreement of the two conventions. -/
theorem c2_rotation_conventions_disagree :
    imagePoint (Real.pi / 2) 1 0 = (-1, 0) ∧ modelPoint (Real.pi / 2) 1 0 = (1, 0) ∧
      imagePoint (Real.pi / 2) 1 0 ≠ modelPoint (Real.pi / 2) 1 0 := by
  unfold imagePoint modelPoint
  norm_num [Real.cos_pi_div_two, Real.sin_pi_div_two, Prod.ext_iff]

/-- Claim C3: a freshly constructed SineLayer with positive indim and omega
has every weight entry inside the closed interval of half-width 1/indim when
it is a first layer and sqrt(6/indim)/omega otherwise; the bias is free. -/
theorem c3_sine_weight_in_bounds (indim outdim : ℕ) (isF : Bool) (omega : ℝ)
    (u : ℕ → ℕ → ℝ) (b : ℕ → ℝ) (hind : 0 < indim) (hom : 0 < omega)
    (hu : ∀ o i, u o i ∈ Set.Icc (0 : ℝ) 1) (o i : ℕ) :
    (SineLayer.create indim outdim isF omega u b).weight o i ∈
      Set.Icc (-(weightBound indim isF omega)) (weightBound indim isF omega) := by
  have hw : 0 ≤ weightBound indim isF omega := by
    unfold weightBound
    have hind' : (0 : ℝ) < (indim : ℝ) := by exact_mod_cast hind
    split
    · positivity
    · exact div_nonneg (Real.sqrt_nonneg _) hom.le
  exact uniformDraw_mem _ _ hw (hu o i)

theorem c3_sine_weight_in_bounds_witness :
    (SineLayer.create 2 3 true 30 (fun _ _ => 0) (fun _ => 0)).weight 0 0 ∈
      Set.Icc (-(weightBound 2 true 30)) (weightBound 2 true 30) :=
  c3_sine_weight_in_bounds 2 3 true 30 (fun _ _ => 0) (fun _ => 0) (by norm_num)
    (by norm_num) (fun o i => by norm_num [Set.mem_Icc]) 0 0

/-- Claim C4 (amended): a ray sample point outside [-1,1] x [-1,1] contributes
the value 0 when the field is a discretized image, because the interpolator
of project_image returns its fill value there with no wraparound and no edge
clamping; the network projector has no such handling (see the
counterexample). -/
theorem c4_image_sample_outside_is_zero (r c : ℕ) (A : ℕ → ℕ → ℝ) (x y : ℝ)
    (h : x < -1 ∨ 1 < x ∨ y < -1 ∨ 1 < y) : interp r c A x y = 0 := by
  unfold interp
  rw [if_neg]
  rintro ⟨h1, h2, h3, h4⟩
  rcases h with h | h | h | h <;> linarith

theorem c4_image_sample_outside_is_zero_witness : interp 2 2 Aex 2 0 = 0 :=
  c4_image_sample_outside_is_zero 2 2 Aex 2 0 (Or.inr (Or.inl (by norm_num)))

/-- Counterexample to claim C4 as stated: with one bin and one sample at angle
pi/4, the single rotated sample of project_model lies outside the domain
(its first coordinate is -sqrt 2 < -1), yet for the constant-one field it
contributes the value 1 to the projection, not 0. -/
theorem c4_model_sample_outside_not_zero :
    linVal 1 0 = -1 ∧ (modelPoint (Real.pi / 4) (-1) (-1)).1 < -1 ∧
      project_model (fun _ _ => 1) (Real.pi / 4) 1 1 = [1] := by
  have hs2 : (1 : ℝ) < Real.sqrt 2 := by
    have h := Real.sqrt_lt_sqrt (by norm_num : (0 : ℝ) ≤ 1) (by norm_num : (1 : ℝ) < 2)
    rwa [Real.sqrt_one] at h
  refine ⟨by simp [linVal], ?_, ?_⟩
  · unfold modelPoint
    simp only [Real.sin_pi_div_four, Real.cos_pi_div_four]
    nlinarith [hs2]
  · unfold project_model modelSample
    simp [Finset.sum_range_one]

/-- Claim C5 (amended): for r, c at least 2 the coordinate grid has exactly
r*c points with every component in [-1, 1], the first point is (-1, -1), the
last point is (1, 1), and the flattening is row-major: the point at flat
index i*c + j is (linVal r i, linVal c j), so the first axis varies slowest.
For r = 1 or c = 1 the one-step linspace holds only the start value -1, so
the last point is (-1, -1) (see the counterexample). -/
theorem c5_grid_properties (r c : ℕ) (hr : 1 ≤ r) (hc : 1 ≤ c) :
    (image_coordinates r c).length = r * c ∧
    (∀ p ∈ image_coordinates r c, -1 ≤ p.1 ∧ p.1 ≤ 1 ∧ -1 ≤ p.2 ∧ p.2 ≤ 1) ∧
    (image_coordinates r c).head? = some (-1, -1) ∧
    (∀ i j, i < r → j < c →
      (image_coordinates r c)[i * c + j]? = some (linVal r i, linVal c j)) ∧
    (2 ≤ r → 2 ≤ c → (image_coordinates r c).getLast? = some (1, 1)) := by
  refine ⟨image_coordinates_length r c, ?_, ?_,
    fun i j hi hj => image_coordinates_getElem r c i j hi hj, ?_⟩
  · intro p hp
    unfold image_coordinates at hp
    simp only [List.mem_flatMap, List.mem_map, List.mem_range] at hp
    obtain ⟨i, hi, j, hj, rfl⟩ := hp
    exact ⟨(linVal_mem r i hi).1, (linVal_mem r i hi).2,
      (linVal_mem c j hj).1, (linVal_mem c j hj).2⟩
  · rw [List.head?_eq_getElem?]
    have h := image_coordinates_getElem r c 0 0 (by omega) (by omega)
    simpa [linVal_start] using h
  · intro hr2 hc2
    rw [List.getLast?_eq_getElem?, image_coordinates_length]
    have hidx : (r - 1) * c + (c - 1) = r * c - 1 := by
      rw [Nat.sub_mul, one_mul]
      have h2 : c ≤ r * c := Nat.le_mul_of_pos_left c (by omega)
      omega
    rw [← hidx, image_coordinates_getElem r c (r - 1) (c - 1) (by omega) (by omega),
      linVal_last r hr2, linVal_last c hc2]

theorem c5_grid_properties_witness :
    (image_coordinates 2 3).length = 2 * 3 ∧
      (image_coordinates 2 3).head? = some (-1, -1) ∧
      (image_coordinates 2 3).getLast? = some (1, 1) :=
  ⟨(c5_grid_properties 2 3 (by norm_num) (by norm_num)).1,
   (c5_grid_properties 2 3 (by norm_num) (by norm_num)).2.2.1,
   (c5_grid_properties 2 3 (by norm_num) (by norm_num)).2.2.2.2 (by norm_num) (by norm_num)⟩

/-- Counterexample to claim C5 as stated: for rows = cols = 1 the grid is the
single point (-1, -1), so its last point is not (1, 1). -/
theorem c5_last_point_fails_at_one :
    (image_coordinates 1 1).getLast? ≠ some (1, 1) := by
  have h : image_coordinates 1 1 = [(-1, -1)] := by
    unfold image_coordinates
    simp [linVal, List.range_succ]
  rw [h]
  simp [Prod.ext_iff]
  norm_num

/-- Claim C7: the forward pass of a SineLayer maps each input vector of the
batch to the elementwise sine of omega times the affine map x W^T + b. -/
theorem c7_forward_is_sine_of_affine (l : SineLayer) (xs : List (ℕ → ℝ)) :
    l.forwardBatch xs = xs.map fun x o =>
      Real.sin (l.omega * ((∑ i ∈ Finset.range l.indim, x i * l.weight o i) + l.bias o)) := by
  unfold SineLayer.forwardBatch SineLayer.forward SineLayer.linearApply
  apply List.map_congr_left
  intro x _
  funext o
  have hs : ∑ i ∈ Finset.range l.indim, l.weight o i * x i
      = ∑ i ∈ Finset.range l.indim, x i * l.weight o i :=
    Finset.sum_congr rfl fun i _ => mul_comm _ _
  rw [hs]

/-- Claim C9 (amended): construction does fail for a zero width (the python
integer divisions 1/indim and 6/hiddendim raise ZeroDivisionError) and for a
non-positive hidden omega (uniform_ rejects a reversed or infinite range),
but not by any validation: a non-positive hidden-layer count is silently
accepted (the layer loop is just empty), and so is a non-positive first
omega (first-layer construction never uses omega), so with positive widths
and hidden omega the constructor succeeds whatever the layer count and first
omega are. -/
theorem c9_construction_failure_pattern (indim outdim nr_hidden hiddendim : ℕ)
    (ol : Bool) (fo ho : ℝ) (us : ℕ → ℕ → ℕ → ℝ) (bs : ℕ → ℕ → ℝ) :
    (hiddendim = 0 →
      Siren.createChecked indim outdim nr_hidden hiddendim ol fo ho us bs = none) ∧
    (ho ≤ 0 →
      Siren.createChecked indim outdim nr_hidden hiddendim ol fo ho us bs = none) ∧
    (indim = 0 →
      Siren.createChecked indim outdim nr_hidden hiddendim ol fo ho us bs = none) ∧
    (0 < indim → 0 < hiddendim → 0 < ho →
      Siren.createChecked indim outdim nr_hidden hiddendim ol fo ho us bs
        = some (Siren.create indim outdim nr_hidden hiddendim ol fo ho us bs)) := by
  refine ⟨fun h => createChecked_none_of_bad _ _ _ _ _ _ _ _ _ (Or.inl h),
    fun h => createChecked_none_of_bad _ _ _ _ _ _ _ _ _ (Or.inr h), ?_, ?_⟩
  · intro h
    have hfirst : SineLayer.createChecked indim hiddendim true fo (us 0) (bs 0) = none := by
      unfold SineLayer.createChecked
      rw [if_pos h]
    unfold Siren.createChecked
    rw [hfirst]
  · intro hi hh hho
    have hfirst : SineLayer.createChecked indim hiddendim true fo (us 0) (bs 0)
        = some (SineLayer.create indim hiddendim true fo (us 0) (bs 0)) := by
      unfold SineLayer.createChecked
      rw [if_neg (by omega), if_neg (by simp)]
    have hchecked : ∀ od n, SineLayer.createChecked hiddendim od false ho (us n) (bs n)
        = some (SineLayer.create hiddendim od false ho (us n) (bs n)) := by
      intro od n
      unfold SineLayer.createChecked
      rw [if_neg (by omega), if_neg (by
        rintro ⟨-, h⟩
        exact absurd h (not_le.mpr hho))]
    have hm : ((List.range nr_hidden).mapM fun k =>
        (SineLayer.createChecked hiddendim hiddendim false ho
          (us (k + 1)) (bs (k + 1))).map NetLayer.sine)
        = some ((List.range nr_hidden).map fun k =>
            NetLayer.sine (SineLayer.create hiddendim hiddendim false ho
              (us (k + 1)) (bs (k + 1)))) :=
      mapM_option_all_some _ _ _ fun k _ => by rw [hchecked hiddendim (k + 1)]; rfl
    have hfinlin : finalLinearChecked hiddendim outdim ho
        (us (nr_hidden + 1)) (bs (nr_hidden + 1))
        = some (NetLayer.lin (LinLayer.create hiddendim outdim
            (Real.sqrt (6 / (hiddendim : ℝ)) / ho)
            (us (nr_hidden + 1)) (bs (nr_hidden + 1)))) := by
      unfold finalLinearChecked
      rw [if_neg (by omega), if_neg (not_le.mpr hho)]
    unfold Siren.createChecked
    cases ol
    · rw [hfirst, hm, hchecked outdim (nr_hidden + 1)]
      rfl
    · rw [hfirst, hm, hfinlin]
      rfl

theorem c9_construction_failure_pattern_witness :
    Siren.createChecked 2 1 3 0 true 30 30 (fun _ _ _ => 0) (fun _ _ => 0) = none ∧
    Siren.createChecked 2 1 3 5 true 30 (-1) (fun _ _ _ => 0) (fun _ _ => 0) = none ∧
    Siren.createChecked 0 1 3 5 true 30 30 (fun _ _ _ => 0) (fun _ _ => 0) = none ∧
    Siren.createChecked 2 1 0 4 false (-5) 30 (fun _ _ _ => 0) (fun _ _ => 0)
      = some (Siren.create 2 1 0 4 false (-5) 30 (fun _ _ _ => 0) (fun _ _ => 0)) :=
  ⟨(c9_construction_failure_pattern 2 1 3 0 true 30 30 _ _).1 rfl,
   (c9_construction_failure_pattern 2 1 3 5 true 30 (-1) _ _).2.1 (by norm_num),
   (c9_construction_failure_pattern 0 1 3 5 true 30 30 _ _).2.2.1 rfl,
   (c9_construction_failure_pattern 2 1 0 4 false (-5) 30 _ _).2.2.2
     (by norm_num) (by norm_num) (by norm_num)⟩

/-- Counterexample to claim C9 as stated: a configuration with a non-positive
hidden-layer count (0) and a non-positive first omega (0) is not rejected:
construction runs to completion and returns the two-layer network, because
the hidden loop is empty and first-layer construction never touches omega. -/
theorem c9_nonpositive_count_and_omega_accepted :
    Siren.createChecked 2 1 0 4 true 0 30 (fun _ _ _ => 0) (fun _ _ => 0)
      = some (Siren.create 2 1 0 4 true 0 30 (fun _ _ _ => 0) (fun _ _ => 0)) := by
  have h1 : SineLayer.createChecked 2 4 true 0 (fun _ _ => 0) (fun _ => 0)
      = some (SineLayer.create 2 4 true 0 (fun _ _ => 0) (fun _ => 0)) := by
    unfold SineLayer.createChecked
    rw [if_neg (by norm_num), if_neg (by simp)]
  have h3 : finalLinearChecked 4 1 30 (fun _ _ => 0) (fun _ => 0)
      = some (NetLayer.lin (LinLayer.create 4 1
          (Real.sqrt (6 / ((4 : ℕ) : ℝ)) / 30) (fun _ _ => 0) (fun _ => 0))) := by
    unfold finalLinearChecked
    rw [if_neg (by norm_num), if_neg (by norm_num)]
  simp only [Siren.createChecked]
  rw [h1, h3]
  rfl

/-- Claim C6 (amended): for at least 2 detector bins and 2 ray samples,
projecting an image at angle t + pi yields the row obtained by reversing the
column order of the row projected at angle t, exactly.  With a single bin or
a single sample the one-step linspace is the asymmetric axis [-1], and the
property fails (see the counterexample). -/
theorem c6_opposite_angle_mirror (r c : ℕ) (A : ℕ → ℕ → ℝ) (t : ℝ) (nrB nrS : ℕ)
    (hB : 2 ≤ nrB) (hS : 2 ≤ nrS) :
    project_image r c A [t + Real.pi] nrB (some nrS) =
      (project_image r c A [t] nrB (some nrS)).map List.reverse := by
  have hres : resolveNrS nrB (some nrS) = nrS := by
    simp only [resolveNrS]
    rw [if_neg (by omega : ¬ nrS = 0)]
  unfold project_image
  rw [hres]
  simp only [List.map_cons, List.map_nil]
  congr 1
  apply List.ext_getElem
  · simp
  · intro i h1 h2
    have hi : i < nrS := by simpa using h1
    rw [List.getElem_reverse]
    simp only [List.getElem_map, List.getElem_range, List.length_map, List.length_range]
    exact sinoEntry_add_pi r c A t nrB nrS i hB hS hi

theorem c6_opposite_angle_mirror_witness :
    project_image 2 2 Aex [0 + Real.pi] 2 (some 2) =
      (project_image 2 2 Aex [0] 2 (some 2)).map List.reverse :=
  c6_opposite_angle_mirror 2 2 Aex 0 2 2 (by norm_num) (by norm_num)

/-- Counterexample to claim C6 as stated: with one bin and one sample, the
projection of the image Aex at angle pi is [[1]] while the reversed
projection at angle 0 is [[0]], so the rows are not mirror images. -/
theorem c6_mirror_fails_single_sample :
    project_image 2 2 Aex [Real.pi] 1 (some 1) ≠
      (project_image 2 2 Aex [0] 1 (some 1)).map List.reverse := by
  have h1 : raySample Real.pi 1 1 0 0 = (1, 1) := by
    unfold raySample imagePoint
    norm_num [linVal, Real.cos_pi, Real.sin_pi, Prod.ext_iff]
  have h0 : raySample 0 1 1 0 0 = (-1, -1) := by
    unfold raySample imagePoint
    norm_num [linVal, Prod.ext_iff]
  have hL : project_image 2 2 Aex [Real.pi] 1 (some 1) = [[1]] := by
    unfold project_image resolveNrS sinoEntry
    simp [Finset.sum_range_one, List.range_succ, h1, interp_corner_hi, Aex]
  have hR : project_image 2 2 Aex [0] 1 (some 1) = [[0]] := by
    unfold project_image resolveNrS sinoEntry
    simp [Finset.sum_range_one, List.range_succ, h0, interp_corner_lo, Aex]
  rw [hL, hR]
  norm_num

/-- Claim C8: a freshly built Siren is, in order, one first sine layer using
first_omega, nr_hidden non-first sine layers using hidden_omega, and one
final layer: a plain linear layer with weight entries inside the interval of
half-width sqrt(6/hiddendim)/hidden_omega when outermost_linear holds, and
one more non-first sine layer otherwise. -/
theorem c8_siren_structure (indim outdim nr_hidden hiddendim : ℕ) (ol : Bool)
    (fo ho : ℝ) (us : ℕ → ℕ → ℕ → ℝ) (bs : ℕ → ℕ → ℝ) (hpos : 0 < ho)
    (hu : ∀ o i, us (nr_hidden + 1) o i ∈ Set.Icc (0 : ℝ) 1) :
    (Siren.create indim outdim nr_hidden hiddendim ol fo ho us bs).map NetLayer.kind
      = (true, true, fo) :: (List.replicate nr_hidden (true, false, ho)
          ++ [if ol then (false, false, 0) else (true, false, ho)]) ∧
    (Siren.create indim outdim nr_hidden hiddendim ol fo ho us bs).getLast?
      = some (if ol then
            NetLayer.lin (LinLayer.create hiddendim outdim
              (Real.sqrt (6 / (hiddendim : ℝ)) / ho)
              (us (nr_hidden + 1)) (bs (nr_hidden + 1)))
          else
            NetLayer.sine (SineLayer.create hiddendim outdim false ho
              (us (nr_hidden + 1)) (bs (nr_hidden + 1)))) ∧
    (∀ o i, (LinLayer.create hiddendim outdim (Real.sqrt (6 / (hiddendim : ℝ)) / ho)
        (us (nr_hidden + 1)) (bs (nr_hidden + 1))).weight o i ∈
      Set.Icc (-(Real.sqrt (6 / (hiddendim : ℝ)) / ho))
        (Real.sqrt (6 / (hiddendim : ℝ)) / ho)) := by
  refine ⟨?_, ?_, ?_⟩
  · have hfin : NetLayer.kind (if ol then
          NetLayer.lin (LinLayer.create hiddendim outdim
            (Real.sqrt (6 / (hiddendim : ℝ)) / ho)
            (us (nr_hidden + 1)) (bs (nr_hidden + 1)))
        else
          NetLayer.sine (SineLayer.create hiddendim outdim false ho
            (us (nr_hidden + 1)) (bs (nr_hidden + 1))))
        = if ol then (false, false, (0 : ℝ)) else (true, false, ho) := by
      cases ol <;> rfl
    unfold Siren.create
    simp only [List.map_cons, List.map_append, List.map_map, List.map_nil, hfin]
    have hhead : NetLayer.kind (NetLayer.sine
        (SineLayer.create indim hiddendim true fo (us 0) (bs 0))) = (true, true, fo) := rfl
    have h : (NetLayer.kind ∘ fun k =>
        NetLayer.sine (SineLayer.create hiddendim hiddendim false ho
          (us (k + 1)) (bs (k + 1)))) = fun _ : ℕ => ((true : Bool), (false : Bool), ho) :=
      funext fun k => rfl
    rw [hhead, h, List.map_const', List.length_range]
    simp [List.cons_append]
  · unfold Siren.create
    exact List.getLast?_concat _
  · intro o i
    have hw : 0 ≤ Real.sqrt (6 / (hiddendim : ℝ)) / ho :=
      div_nonneg (Real.sqrt_nonneg _) hpos.le
    exact uniformDraw_mem _ _ hw (hu o i)

theorem c8_siren_structure_witness :
    (Siren.create 2 1 1 4 true 30 30 (fun _ _ _ => 0) (fun _ _ => 0)).map NetLayer.kind
        = (true, true, (30 : ℝ)) :: (List.replicate 1 (true, false, (30 : ℝ))
            ++ [(false, false, (0 : ℝ))]) ∧
      (LinLayer.create 4 1 (Real.sqrt (6 / ((4 : ℕ) : ℝ)) / 30)
          (fun _ _ => 0) (fun _ => 0)).weight 0 0 ∈
        Set.Icc (-(Real.sqrt (6 / ((4 : ℕ) : ℝ)) / 30))
          (Real.sqrt (6 / ((4 : ℕ) : ℝ)) / 30) := by
  have h := c8_siren_structure 2 1 1 4 true 30 30 (fun _ _ _ => 0) (fun _ _ => 0)
    (by norm_num) (fun o i => by norm_num [Set.mem_Icc])
  exact ⟨by simpa using h.1, h.2.2 0 0⟩

/-- Claim C10: every output entry of a SineLayer forward pass lies in
[-1, 1], for any dimensions, omega, weights, bias and input; hence every
hidden periodic activation of a Siren is so bounded. -/
theorem c10_sine_output_bounded (l : SineLayer) (x : ℕ → ℝ) (o : ℕ) :
    -1 ≤ l.forward x o ∧ l.forward x o ≤ 1 := by
  unfold SineLayer.forward
  exact ⟨Real.neg_one_le_sin _, Real.sin_le_one _⟩

end TomoNF
